import Mathlib

/-!
Verification of the VentureNerve portfolio engine.

The definitions below shallowly embed the engine code of the repository:

* `buildPortfolio` and `runPortfolioMC` from `src/app/src/pages/Landing.jsx`;
* `runMonteCarlo` from `src/app/src/pages/Methodology.jsx`.

JavaScript numbers are modelled as rationals (`ℚ`), exact where the code
performs arithmetic.  The ambient random source `Math.random()` is modelled
as an explicit stream of draws (`ℕ → ℚ`, indexed in consumption order); the
Box-Muller transform of two uniforms into one standard-normal variate is
abstracted as the stream directly supplying the normal variate `z`, since
the transform is a deterministic function of the two consumed uniforms and
every property proved here holds for arbitrary rational `z`.
-/

namespace VentureNerve

/-- One candidate startup, as consumed by `buildPortfolio` in `Landing.jsx`:
the fields of the mock-data records that the engine reads (`id`, `sector`,
`expectedIRR`, `pd12m`). -/
structure Startup where
  id : ℕ
  sector : String
  expectedIRR : ℚ
  pd12m : ℚ
deriving DecidableEq, Repr

/-- The investor profile passed to `buildPortfolio` (`minIRR`, `maxPD`,
`risk`, with `risk` an integer slider value 1..5 parsed by `parseInt`). -/
structure Profile where
  minIRR : ℚ
  maxPD : ℚ
  risk : ℕ
deriving DecidableEq, Repr

/-- A startup together with the `rar` and `score` fields added by the
`.map` inside `buildPortfolio`. -/
structure ScoredStartup where
  s : Startup
  rar : ℚ
  score : ℚ
deriving DecidableEq, Repr

/-- A selected startup with the `weight` field added by the final `.map`
of `buildPortfolio`. -/
structure WeightedStartup where
  s : Startup
  rar : ℚ
  score : ℚ
  weight : ℚ
deriving DecidableEq, Repr

/-- Modelled from the spec: `computeRAR` lives in `components/mockData`,
which is not under `src/`; the spec and the inline formula in
`StartupDetail.jsx` (line 569) give `RAR = expectedIRR * (1 - pd12m)`. -/
def computeRAR (s : Startup) : ℚ :=
  s.expectedIRR * (1 - s.pd12m)

/-- The eligibility filter of `buildPortfolio` (Landing.jsx line 479):
`s.expectedIRR >= minIRR && s.pd12m <= maxPD`. -/
def eligibleOf (startups : List Startup) (pr : Profile) : List Startup :=
  startups.filter (fun s => pr.minIRR ≤ s.expectedIRR && s.pd12m ≤ pr.maxPD)

/-- The candidate pool of `buildPortfolio` (line 480): the eligible list,
silently falling back to the full startup list when fewer than 5 are
eligible. -/
def poolOf (startups : List Startup) (pr : Profile) : List Startup :=
  if 5 ≤ (eligibleOf startups pr).length then eligibleOf startups pr else startups

/-- `riskFactor = risk / 5` (line 483). -/
def riskFactor (risk : ℕ) : ℚ :=
  (risk : ℚ) / 5

/-- The ranking score (line 488):
`s.expectedIRR * riskFactor + (1 - s.pd12m) * (1 - riskFactor * 0.5)`. -/
def scoreOf (rf : ℚ) (s : Startup) : ℚ :=
  s.expectedIRR * rf + (1 - s.pd12m) * (1 - rf * (1 / 2))

/-- Descending-score order used by the `.sort((a, b) => b.score - a.score)`
call (line 490). -/
def scoreGE (a b : ScoredStartup) : Prop :=
  b.score ≤ a.score

instance : DecidableRel scoreGE :=
  fun a b => inferInstanceAs (Decidable (b.score ≤ a.score))

instance : IsTotal ScoredStartup scoreGE :=
  ⟨fun a b => le_total b.score a.score⟩

instance : IsTrans ScoredStartup scoreGE :=
  ⟨fun _ _ _ hab hbc => le_trans hbc hab⟩

/-- The scored, score-descending candidate list (lines 484-490). -/
def scoredOf (startups : List Startup) (pr : Profile) : List ScoredStartup :=
  List.insertionSort scoreGE
    ((poolOf startups pr).map (fun s => ⟨s, computeRAR s, scoreOf (riskFactor pr.risk) s⟩))

/-- First selection pass (lines 493-501): walk the ranked list, taking a
candidate only when its sector is not yet represented, until 5 are taken. -/
def pass1 : List ScoredStartup → List ScoredStartup → List String → List ScoredStartup
  | [], acc, _ => acc
  | x :: t, acc, sectors =>
    if 5 ≤ acc.length then acc
    else if x.s.sector ∈ sectors then pass1 t acc sectors
    else pass1 t (acc ++ [x]) (x.s.sector :: sectors)

/-- Second selection pass (lines 502-505): walk the ranked list again,
filling the remaining slots with any candidate not already selected
(compared by `id`), until 5 are selected. -/
def pass2 : List ScoredStartup → List ScoredStartup → List ScoredStartup
  | [], acc => acc
  | x :: t, acc =>
    if 5 ≤ acc.length then acc
    else if acc.any (fun y => y.s.id == x.s.id) then pass2 t acc
    else pass2 t (acc ++ [x])

/-- The selected subset of `buildPortfolio` (lines 492-505). -/
def selectedOf (startups : List Startup) (pr : Profile) : List ScoredStartup :=
  pass2 (scoredOf startups pr) (pass1 (scoredOf startups pr) [] [])

/-- The raw (unnormalized) weight of one selected startup (lines 508-512):
`(1 / (pd + 0.05)) * (1 - riskFactor * 0.4) + expectedIRR * riskFactor * 5`. -/
def rawWeight (rf : ℚ) (x : ScoredStartup) : ℚ :=
  (1 / (x.s.pd12m + 1 / 20)) * (1 - rf * (2 / 5)) + x.s.expectedIRR * rf * 5

/-- `buildPortfolio` (Landing.jsx lines 477-515): filter, rank, select with
sector diversification, then attach normalized weights. -/
def buildPortfolio (startups : List Startup) (pr : Profile) : List WeightedStartup :=
  let sel := selectedOf startups pr
  let raw := sel.map (rawWeight (riskFactor pr.risk))
  sel.map (fun x => ⟨x.s, x.rar, x.score, rawWeight (riskFactor pr.risk) x / raw.sum⟩)

/-! ### The portfolio Monte Carlo simulation, `runPortfolioMC` (Landing.jsx lines 517-557)

The loop nest is `for sim in 0..n, for year in 1..5, for holding in portfolio`
and each holding consumes a fixed number of draws (two uniforms feeding
Box-Muller, modelled as the normal variate `z` itself, plus one uniform for
the distress check), with no early exit anywhere.  The draw stream is
therefore indexed positionally: simulation `sim` owns the index block
starting at `sim * (5 * (2 * portfolio.length))`, year `y+1` the sub-block
at offset `y * (2 * portfolio.length)`, and each holding two consecutive
indices inside it. -/

/-- The failure hazard used by the Bernoulli distress draw of
`runPortfolioMC` (Landing.jsx line 528): `holding.pd12m * (year / 2)`.
No clamping is applied to this value. -/
def hazardRate (pd : ℚ) (year : ℕ) : ℚ :=
  pd * ((year : ℚ) / 2)

/-- One holding's contribution to a year's portfolio return (lines 525-530):
`annualIRR = expectedIRR + 0.15 * z`; distress draw `u < pd12m * (year/2)`;
contribution `-weight * 0.6` when distressed, else `weight * annualIRR`. -/
def contribOf (h : WeightedStartup) (z u : ℚ) (year : ℕ) : ℚ :=
  if u < hazardRate h.s.pd12m year then -h.weight * (3 / 5)
  else h.weight * (h.s.expectedIRR + (3 / 20) * z)

/-- The inner holdings loop (lines 523-531): sums every holding's
contribution, consuming two draws per holding starting at index `base`. -/
def yearReturnAux : List WeightedStartup → (ℕ → ℚ) → ℕ → ℕ → ℚ
  | [], _, _, _ => 0
  | h :: t, r, base, year =>
    contribOf h (r base) (r (base + 1)) year + yearReturnAux t r (base + 2) year

/-- The running (unclamped) path value after `y` years of simulation
`simBase / (5 * 2 * len)` (line 532): `value *= (1 + yearReturn)`. -/
def valueAfter (p : List WeightedStartup) (r : ℕ → ℚ) (simBase : ℕ) : ℕ → ℚ
  | 0 => 1
  | y + 1 =>
    valueAfter p r simBase y *
      (1 + yearReturnAux p r (simBase + y * (2 * p.length)) (y + 1))

/-- The recorded yearly values of one simulated path (lines 521-535):
`[1.0]` followed by `Math.max(0, value)` for years 1..5. -/
def recordedPath (p : List WeightedStartup) (r : ℕ → ℚ) (sim : ℕ) : List ℚ :=
  (List.range 6).map (fun y =>
    if y = 0 then 1 else max 0 (valueAfter p r (sim * (5 * (2 * p.length))) y))

/-- All `n` simulated paths (lines 518-536). -/
def pathsOf (p : List WeightedStartup) (r : ℕ → ℚ) (n : ℕ) : List (List ℚ) :=
  (List.range n).map (recordedPath p r)

/-- `getPercentile` (lines 538-541): sort ascending, take the entry at
index `Math.floor(length * p)` (out-of-range reads yield the JS
`undefined`; the default is irrelevant for the percentile levels used,
which stay in range for nonempty input). -/
def getPercentile (arr : List ℚ) (p : ℚ) : ℚ :=
  (List.insertionSort (· ≤ ·) arr).getD (Int.toNat ⌊(arr.length : ℚ) * p⌋) 0

/-- Rounding applied by `+(x * 100).toFixed(1)` when building chart rows:
one decimal digit, half away from zero on the nonnegative values produced
here, modelled as `⌊10 x + 1/2⌋ / 10`. -/
def roundTenth (x : ℚ) : ℚ :=
  (⌊x * 10 + 1 / 2⌋ : ℚ) / 10

/-- One row of the chart data (lines 543-553): the five percentile levels
of the year's recorded values, scaled by 100 and rounded to one decimal. -/
structure ChartRow where
  year : ℕ
  p10 : ℚ
  p25 : ℚ
  p50 : ℚ
  p75 : ℚ
  p90 : ℚ
deriving DecidableEq, Repr

/-- Builds one `ChartRow` from the values of a single year. -/
def chartRowOf (vals : List ℚ) (year : ℕ) : ChartRow :=
  ⟨year,
    roundTenth (getPercentile vals (1 / 10) * 100),
    roundTenth (getPercentile vals (1 / 4) * 100),
    roundTenth (getPercentile vals (1 / 2) * 100),
    roundTenth (getPercentile vals (3 / 4) * 100),
    roundTenth (getPercentile vals (9 / 10) * 100)⟩

/-- The chart data (lines 543-553): one row per year 0..5. -/
def chartDataOf (p : List WeightedStartup) (r : ℕ → ℚ) (n : ℕ) : List ChartRow :=
  (List.range 6).map (fun y =>
    chartRowOf ((pathsOf p r n).map (fun path => path.getD y 0)) y)

/-- The result record of `runPortfolioMC` (line 556). -/
structure MCResult where
  chartData : List ChartRow
  pd : ℚ
  n : ℕ
deriving DecidableEq, Repr

/-- `runPortfolioMC` (Landing.jsx lines 517-557), with the ambient
`Math.random()` stream made explicit as `r`: simulates `n` portfolio
paths, summarizes them into percentile chart rows, and reports the
fraction of paths ending below `0.5` as the portfolio distress risk. -/
def runPortfolioMC (p : List WeightedStartup) (n : ℕ) (r : ℕ → ℚ) : MCResult :=
  ⟨chartDataOf p r n,
   ((pathsOf p r n).filter (fun path => path.getD 5 0 < 1 / 2)).length / (n : ℚ),
   n⟩

/-! ### The single-startup Monte Carlo, `runMonteCarlo` (Methodology.jsx lines 8-60) -/

/-- Startup parameters hard-coded in `runMonteCarlo` (lines 11-15, 35-36). -/
def baseMRR : ℚ := 150000

/-- Monthly growth mean (line 12). -/
def growthMean : ℚ := 12 / 100

/-- Monthly growth standard deviation (line 13). -/
def growthStd : ℚ := 8 / 100

/-- Monthly burn rate (line 14). -/
def burnRate : ℚ := 200000

/-- Initial cash balance (line 15). -/
def initialCash : ℚ := 4400000

/-- Invested amount used for the multiple (line 35). -/
def investmentCost : ℚ := 1000000

/-- The multiplicative monthly MRR factor (lines 27-28):
`growth = growthMean + growthStd * z`, then `mrr *= (1 + growth)`. -/
def monthFactor (z : ℚ) : ℚ :=
  1 + (growthMean + growthStd * z)

/-- State of one trial of `runMonteCarlo`: cash, MRR, and whether the
trial was flagged distressed. -/
structure TrialState where
  cash : ℚ
  mrr : ℚ
  distressed : Bool
deriving DecidableEq, Repr

/-- The monthly loop of one trial (lines 23-31): each month updates MRR by
`monthFactor` of the drawn variate, adds MRR and subtracts burn from cash,
and breaks flagged distressed as soon as `cash <= 0`. -/
def runMonths (z : ℕ → ℚ) : ℕ → ℕ → TrialState → TrialState
  | _, 0, st => st
  | m, fuel + 1, st =>
    let mrr2 := st.mrr * monthFactor (z m)
    let cash2 := st.cash + mrr2 - burnRate
    if cash2 ≤ 0 then ⟨cash2, mrr2, true⟩
    else runMonths z (m + 1) fuel ⟨cash2, mrr2, false⟩

/-- One full 12-month trial (lines 17-31), with the trial's normal draws
supplied by `z`. -/
def simulateTrial (z : ℕ → ℚ) : TrialState :=
  runMonths z 0 12 ⟨initialCash, baseMRR, false⟩

/-- The MRR value after `m` undisturbed months: the recursion performed by
lines 27-28 of `runMonteCarlo` with month `m` applying `monthFactor (z m)`. -/
def mrrSeq (z : ℕ → ℚ) : ℕ → ℚ
  | 0 => baseMRR
  | m + 1 => mrrSeq z m * monthFactor (z m)

/-- One trial's recorded outcome (line 39). -/
structure TrialOutcome where
  irr : ℚ
  distressed : Bool
  multiple : ℚ
deriving DecidableEq, Repr

/-- The outcome of one trial (lines 33-39): `terminalARR = mrr * 12`;
`multiple = distressed ? 0 : max(0, terminalARR * 8 / investmentCost)`;
`irr = distressed ? -1 : multiple^(1/3) - 1`.  The real cube root used by
`Math.pow(multiple, 1/3)` is abstracted as the parameter `cbrt`; no claim
proved here depends on its values. -/
def trialOutcome (cbrt : ℚ → ℚ) (z : ℕ → ℚ) : TrialOutcome :=
  let st := simulateTrial z
  let multiple := if st.distressed then 0 else max 0 (st.mrr * 12 * 8 / investmentCost)
  ⟨if st.distressed then -1 else cbrt multiple - 1, st.distressed, multiple⟩

/-- The summary statistics of `runMonteCarlo` (lines 42-45): `pd` is the
distressed fraction, `meanIRR` averages the IRRs of the non-distressed
trials guarding the divisor with `(irrs.length || 1)`, and
`rar = meanIRR * (1 - pd)`. -/
structure MCSummary where
  pd : ℚ
  meanIRR : ℚ
  rar : ℚ
deriving DecidableEq, Repr

/-- Summarizes a list of trial outcomes (lines 42-45). -/
def summarize (results : List TrialOutcome) (n : ℕ) : MCSummary :=
  let pd := ((results.filter (fun o => o.distressed)).length : ℚ) / (n : ℚ)
  let irrs := (results.filter (fun o => !o.distressed)).map (fun o => o.irr)
  let meanIRR := irrs.sum / (if irrs.length = 0 then 1 else (irrs.length : ℚ))
  ⟨pd, meanIRR, meanIRR * (1 - pd)⟩

/-- `runMonteCarlo` (Methodology.jsx lines 8-60) restricted to its numeric
outputs: runs `n` trials (trial `i` drawing from `zs i`) and summarizes
them.  The histogram buckets, a pure rendering aid, are not modelled. -/
def runMonteCarlo (cbrt : ℚ → ℚ) (zs : ℕ → ℕ → ℚ) (n : ℕ) : MCSummary :=
  summarize ((List.range n).map (fun i => trialOutcome cbrt (zs i))) n

/-! ### Spec-modelled allocation layer (tickets and budget)

No code under `src/` computes dollar tickets: the ticket logic belongs to
the `build_portfolio` engine documented in the repository README, whose
source is not included.  It is modelled here from the spec. -/

/-- Modelled from the spec: the aggregator of the README engine
(`build_portfolio`, not under `src/`) converts weights into dollar tickets
`ticket_j = weight_j * budget` (spec section 4.7). -/
def ticketsOf (weights : List ℚ) (budget : ℚ) : List ℚ :=
  weights.map (fun w => w * budget)

/-- Modelled from the spec: the aggregator re-checks `ticket_j >= min_ticket`
for every member before emitting an allocation (spec section 4.7). -/
def acceptableWeights (weights : List ℚ) (budget minTicket : ℚ) : Bool :=
  (ticketsOf weights budget).all (fun t => minTicket ≤ t)

/-- Modelled from the spec: candidate weight vectors are considered
best-first, and a candidate violating the ticket re-check is rejected in
favour of the next-best candidate (spec section 4.7, "degrades gracefully
rather than emitting an invalid allocation"). -/
def pickAllocation (cands : List (List ℚ)) (budget minTicket : ℚ) : Option (List ℚ) :=
  cands.find? (fun w => acceptableWeights w budget minTicket)

/-- The selection procedure claimed by the spec ("selects the top k
candidates greedily down the ranked list"), written from the claim's words
for refinement comparison with `selectedOf`: with no budget constraint in
the code, it is simply the first five of the ranked list. -/
def specGreedyTop5 (startups : List Startup) (pr : Profile) : List ScoredStartup :=
  (scoredOf startups pr).take 5

/-! ## Helper lemmas about the two selection passes -/

theorem pass1_append (l : List ScoredStartup) :
    ∀ acc sectors, ∃ t, pass1 l acc sectors = acc ++ t := by
  induction l with
  | nil => intro acc sectors; exact ⟨[], by simp [pass1]⟩
  | cons x t ih =>
    intro acc sectors
    by_cases h5 : 5 ≤ acc.length
    · exact ⟨[], by simp [pass1, h5]⟩
    · by_cases hs : x.s.sector ∈ sectors
      · obtain ⟨u, hu⟩ := ih acc sectors
        exact ⟨u, by simp [pass1, h5, hs, hu]⟩
      · obtain ⟨u, hu⟩ := ih (acc ++ [x]) (x.s.sector :: sectors)
        exact ⟨x :: u, by simp [pass1, h5, hs, hu]⟩

theorem pass2_append (l : List ScoredStartup) :
    ∀ acc, ∃ t, pass2 l acc = acc ++ t := by
  induction l with
  | nil => intro acc; exact ⟨[], by simp [pass2]⟩
  | cons x t ih =>
    intro acc
    by_cases h5 : 5 ≤ acc.length
    · exact ⟨[], by simp [pass2, h5]⟩
    · by_cases hd : acc.any (fun y => y.s.id == x.s.id)
      · obtain ⟨u, hu⟩ := ih acc
        exact ⟨u, by simp [pass2, h5, hd, hu]⟩
      · obtain ⟨u, hu⟩ := ih (acc ++ [x])
        exact ⟨x :: u, by simp [pass2, h5, hd, hu]⟩

theorem mem_of_pass1 (l : List ScoredStartup) :
    ∀ acc sectors x, x ∈ pass1 l acc sectors → x ∈ acc ∨ x ∈ l := by
  induction l with
  | nil => intro acc sectors x hx; simp [pass1] at hx; exact Or.inl hx
  | cons y t ih =>
    intro acc sectors x hx
    by_cases h5 : 5 ≤ acc.length
    · simp [pass1, h5] at hx; exact Or.inl hx
    · by_cases hs : y.s.sector ∈ sectors
      · simp only [pass1, if_neg h5, if_pos hs] at hx
        rcases ih _ _ _ hx with h | h
        · exact Or.inl h
        · exact Or.inr (List.mem_cons_of_mem _ h)
      · simp only [pass1, if_neg h5, if_neg hs] at hx
        rcases ih _ _ _ hx with h | h
        · rcases List.mem_append.mp h with h2 | h2
          · exact Or.inl h2
          · simp at h2; subst h2; exact Or.inr (List.mem_cons_self _ _)
        · exact Or.inr (List.mem_cons_of_mem _ h)

theorem mem_of_pass2 (l : List ScoredStartup) :
    ∀ acc x, x ∈ pass2 l acc → x ∈ acc ∨ x ∈ l := by
  induction l with
  | nil => intro acc x hx; simp [pass2] at hx; exact Or.inl hx
  | cons y t ih =>
    intro acc x hx
    by_cases h5 : 5 ≤ acc.length
    · simp [pass2, h5] at hx; exact Or.inl hx
    · by_cases hd : acc.any (fun z => z.s.id == y.s.id)
      · simp only [pass2, if_neg h5, if_pos hd] at hx
        rcases ih _ _ hx with h | h
        · exact Or.inl h
        · exact Or.inr (List.mem_cons_of_mem _ h)
      · simp only [pass2, if_neg h5, if_neg hd] at hx
        rcases ih _ _ hx with h | h
        · rcases List.mem_append.mp h with h2 | h2
          · exact Or.inl h2
          · simp at h2; subst h2; exact Or.inr (List.mem_cons_self _ _)
        · exact Or.inr (List.mem_cons_of_mem _ h)

theorem length_pass1_le (l : List ScoredStartup) :
    ∀ acc sectors, acc.length ≤ 5 → (pass1 l acc sectors).length ≤ 5 := by
  induction l with
  | nil => intro acc sectors h; simpa [pass1] using h
  | cons x t ih =>
    intro acc sectors h
    by_cases h5 : 5 ≤ acc.length
    · simpa [pass1, h5] using h
    · by_cases hs : x.s.sector ∈ sectors
      · simpa [pass1, h5, hs] using ih acc sectors h
      · refine le_of_eq_of_le (congrArg _ ?_) (ih (acc ++ [x]) (x.s.sector :: sectors) ?_)
        · simp [pass1, h5, hs]
        · simp only [List.length_append, List.length_singleton]
          omega

theorem length_pass2_le (l : List ScoredStartup) :
    ∀ acc, acc.length ≤ 5 → (pass2 l acc).length ≤ 5 := by
  induction l with
  | nil => intro acc h; simpa [pass2] using h
  | cons x t ih =>
    intro acc h
    by_cases h5 : 5 ≤ acc.length
    · simpa [pass2, h5] using h
    · by_cases hd : acc.any (fun y => y.s.id == x.s.id)
      · simpa [pass2, h5, hd] using ih acc h
      · refine le_of_eq_of_le (congrArg _ ?_) (ih (acc ++ [x]) ?_)
        · simp [pass2, h5, hd]
        · simp only [List.length_append, List.length_singleton]
          omega

theorem head_mem_selectedOf (startups : List Startup) (pr : Profile)
    (hd : ScoredStartup) (t : List ScoredStartup)
    (h : scoredOf startups pr = hd :: t) : hd ∈ selectedOf startups pr := by
  unfold selectedOf
  rw [h]
  have h1 : pass1 (hd :: t) [] [] = pass1 t [hd] [hd.s.sector] := by
    simp [pass1]
  obtain ⟨u, hu⟩ := pass1_append t [hd] [hd.s.sector]
  obtain ⟨v, hv⟩ := pass2_append (hd :: t) ([hd] ++ u)
  rw [h1, hu, hv]
  exact List.mem_append.mpr (Or.inl (List.mem_append.mpr (Or.inl (List.mem_singleton_self hd))))

/-! ## Claim C4: selection order -/

/-- Claim C4, counterexample.  The claim says the selected subset is the
top-k of the score-descending ranking, with skips only for a budget
constraint.  With six candidates whose two best share a sector, the
sector-diversification pass of `buildPortfolio` drops the second-best
candidate (id 2) in favour of lower-scored ones, so the selection differs
from the greedy top five of the ranked list. -/
theorem selectedOf_ne_specGreedyTop5 :
    (selectedOf
        [⟨1, "A", 1, 0⟩, ⟨2, "A", 9 / 10, 0⟩, ⟨3, "B", 8 / 10, 0⟩,
         ⟨4, "C", 7 / 10, 0⟩, ⟨5, "D", 6 / 10, 0⟩, ⟨6, "E", 1 / 2, 0⟩]
        ⟨0, 1, 3⟩).map (fun x => x.s.id) ≠
      (specGreedyTop5
        [⟨1, "A", 1, 0⟩, ⟨2, "A", 9 / 10, 0⟩, ⟨3, "B", 8 / 10, 0⟩,
         ⟨4, "C", 7 / 10, 0⟩, ⟨5, "D", 6 / 10, 0⟩, ⟨6, "E", 1 / 2, 0⟩]
        ⟨0, 1, 3⟩).map (fun x => x.s.id) := by
  have h1 : scoredOf
      [⟨1, "A", 1, 0⟩, ⟨2, "A", 9 / 10, 0⟩, ⟨3, "B", 8 / 10, 0⟩,
       ⟨4, "C", 7 / 10, 0⟩, ⟨5, "D", 6 / 10, 0⟩, ⟨6, "E", 1 / 2, 0⟩]
      ⟨0, 1, 3⟩ =
      [⟨⟨1, "A", 1, 0⟩, 1, 13 / 10⟩, ⟨⟨2, "A", 9 / 10, 0⟩, 9 / 10, 31 / 25⟩,
       ⟨⟨3, "B", 8 / 10, 0⟩, 4 / 5, 59 / 50⟩, ⟨⟨4, "C", 7 / 10, 0⟩, 7 / 10, 28 / 25⟩,
       ⟨⟨5, "D", 6 / 10, 0⟩, 3 / 5, 53 / 50⟩, ⟨⟨6, "E", 1 / 2, 0⟩, 1 / 2, 1⟩] := by
    norm_num [scoredOf, poolOf, eligibleOf, computeRAR, scoreOf, riskFactor,
      List.insertionSort, List.orderedInsert, List.filter, scoreGE]
  rw [selectedOf, specGreedyTop5, h1]
  simp +decide [pass1, pass2]

/-- Claim C4, amended.  `buildPortfolio` ranks all candidates by score
descending and then selects in two passes: a first pass takes candidates in
rank order whose sector is not yet represented, a second pass fills the
remaining slots in rank order with candidates not already selected; hence a
candidate can be skipped for sector duplication (there is no budget or
min-ticket constraint in the code).  Consequently: the ranked list is
sorted by descending score, at most five candidates are selected, every
selected candidate comes from the ranked candidate list, and the
top-ranked candidate is always selected. -/
theorem selection_two_pass (startups : List Startup) (pr : Profile) :
    (scoredOf startups pr).Sorted scoreGE ∧
    (selectedOf startups pr).length ≤ 5 ∧
    (∀ x ∈ selectedOf startups pr, x ∈ scoredOf startups pr) ∧
    (∀ hd t, scoredOf startups pr = hd :: t → hd ∈ selectedOf startups pr) := by
  refine ⟨List.sorted_insertionSort scoreGE _, ?_, ?_, ?_⟩
  · exact length_pass2_le _ _ (length_pass1_le _ [] [] (by simp))
  · intro x hx
    rcases mem_of_pass2 _ _ _ hx with h | h
    · rcases mem_of_pass1 _ _ _ _ h with h2 | h2
      · simp at h2
      · exact h2
    · exact h
  · intro hd t h
    exact head_mem_selectedOf startups pr hd t h

/-- Claim C4, witness for the amended theorem: a single candidate heads its
own ranked list and is selected. -/
theorem selection_two_pass_witness :
    (⟨⟨1, "A", 1, 0⟩, 1, 13 / 10⟩ : ScoredStartup) ∈
      selectedOf [⟨1, "A", 1, 0⟩] ⟨0, 1, 3⟩ :=
  (selection_two_pass [⟨1, "A", 1, 0⟩] ⟨0, 1, 3⟩).2.2.2
    ⟨⟨1, "A", 1, 0⟩, 1, 13 / 10⟩ []
    (by norm_num [scoredOf, poolOf, eligibleOf, computeRAR, scoreOf, riskFactor,
      List.insertionSort, List.orderedInsert, List.filter])

/-! ## Claim C10: silent fallback to the full list -/

/-- Claim C10: when fewer than 5 startups pass the investor-profile filters,
`buildPortfolio` silently ranks the full startup list, so the returned
portfolio can contain holdings violating the filters; the function has no
error output.  First conjunct: the fallback, in general.  Second conjunct:
a concrete profile (`minIRR = 1/4`, `maxPD = 1/5`) and a startup violating
both filters (`expectedIRR = 1/10 < 1/4`, `pd12m = 1/2 > 1/5`) that is
nevertheless returned as a holding. -/
theorem eligible_fallback_silent :
    (∀ (startups : List Startup) (pr : Profile),
        (eligibleOf startups pr).length < 5 → poolOf startups pr = startups) ∧
    ((buildPortfolio [⟨1, "A", 1 / 10, 1 / 2⟩] ⟨1 / 4, 1 / 5, 3⟩).map (fun w => w.s) =
        [⟨1, "A", 1 / 10, 1 / 2⟩] ∧
      (1 / 10 : ℚ) < 1 / 4 ∧ (1 / 5 : ℚ) < 1 / 2) := by
  refine ⟨?_, ?_, by norm_num, by norm_num⟩
  · intro startups pr h
    unfold poolOf
    rw [if_neg (by omega)]
  · norm_num [buildPortfolio, selectedOf, scoredOf, poolOf, eligibleOf, computeRAR,
      scoreOf, riskFactor, rawWeight, List.insertionSort, List.orderedInsert,
      List.filter, pass1, pass2]

/-- Claim C10, witness: a concrete instance of the fallback conjunct. -/
theorem eligible_fallback_silent_witness :
    poolOf [⟨1, "A", 1 / 10, 1 / 2⟩] ⟨1 / 4, 1 / 5, 3⟩ = [⟨1, "A", 1 / 10, 1 / 2⟩] :=
  eligible_fallback_silent.1 [⟨1, "A", 1 / 10, 1 / 2⟩] ⟨1 / 4, 1 / 5, 3⟩
    (by norm_num [eligibleOf, List.filter])

/-! ## Claim C6: the failure hazard -/

/-- Claim C6, counterexample.  The claim says the hazard used in the
Bernoulli distress draw always lies in `[0, 1]`, being clamped before use.
`runPortfolioMC` uses `hazardRate pd year = pd * (year / 2)` with no
clamping: for the valid distress probability `pd12m = 1/2` the year-5
hazard is `5/4 > 1`. -/
theorem hazardRate_exceeds_one :
    (0 : ℚ) ≤ 1 / 2 ∧ (1 / 2 : ℚ) ≤ 1 ∧ 1 < hazardRate (1 / 2) 5 := by
  norm_num [hazardRate]

/-- Claim C6, amended.  The hazard `pd12m * (year / 2)` used by
`runPortfolioMC` is not clamped; over the five-year horizon it lies in
`[0, 1]` exactly when `0 ≤ pd12m ≤ 2/5` (a hazard above 1 merely acts as
certain distress in the comparison with a uniform draw). -/
theorem hazardRate_unit_interval (pd : ℚ) (year : ℕ)
    (h0 : 0 ≤ pd) (h1 : pd ≤ 2 / 5) (hy : year ≤ 5) :
    0 ≤ hazardRate pd year ∧ hazardRate pd year ≤ 1 := by
  have hyq : (year : ℚ) ≤ 5 := by exact_mod_cast hy
  have hy0 : (0 : ℚ) ≤ (year : ℚ) := by positivity
  unfold hazardRate
  constructor
  · positivity
  · nlinarith

/-- Claim C6, witness for the amended theorem. -/
theorem hazardRate_unit_interval_witness :
    0 ≤ hazardRate (1 / 5) 3 ∧ hazardRate (1 / 5) 3 ≤ 1 :=
  hazardRate_unit_interval (1 / 5) 3 (by norm_num) (by norm_num) (by norm_num)

/-! ## Claim C5: tickets and the budget invariant -/

theorem sum_map_mul_const (l : List ℚ) (c : ℚ) :
    (l.map (fun x => x * c)).sum = l.sum * c := by
  induction l with
  | nil => simp
  | cons a t ih => simp [ih, add_mul]

/-- Claim C5 (spec-modelled: the ticket-emitting aggregator exists only in
the README engine, not under `src/`).  For any allocation emitted by the
modelled aggregator (a candidate that passed the ticket re-check) whose
weights sum to 1: each ticket equals `weight * budget`, every ticket is at
least the minimum ticket, and the tickets sum to at most the budget. -/
theorem pickAllocation_budget_invariants (cands : List (List ℚ)) (budget minTicket : ℚ)
    (w : List ℚ) (hp : pickAllocation cands budget minTicket = some w)
    (hsum : w.sum = 1) :
    ticketsOf w budget = w.map (fun x => x * budget) ∧
    (∀ t ∈ ticketsOf w budget, minTicket ≤ t) ∧
    (ticketsOf w budget).sum ≤ budget := by
  unfold pickAllocation at hp
  refine ⟨rfl, ?_, ?_⟩
  · have hacc := List.find?_some hp
    simp only [] at hacc
    unfold acceptableWeights at hacc
    intro t ht
    have h2 := List.all_eq_true.mp hacc t ht
    exact of_decide_eq_true h2
  · unfold ticketsOf
    rw [sum_map_mul_const, hsum, one_mul]

/-- Claim C5, witness: a two-member equal-weight allocation with budget 100
and minimum ticket 10 passes the re-check and respects the budget. -/
theorem pickAllocation_budget_invariants_witness :
    (ticketsOf [1 / 2, 1 / 2] (100 : ℚ)).sum ≤ 100 :=
  (pickAllocation_budget_invariants [[1 / 2, 1 / 2]] 100 10 [1 / 2, 1 / 2]
    (by norm_num [pickAllocation, acceptableWeights, ticketsOf, List.find?])
    (by norm_num)).2.2

/-! ## Claim C8: the all-distressed degenerate case -/

/-- Claim C8: when every simulated trial of `runMonteCarlo` is distressed
the summary is still fully defined (no NaN can arise): the guarded divisor
`(irrs.length || 1)` substitutes 1 for the empty survivor list, giving
`meanIRR = 0`, `rar = 0`, and `pd = 1`. -/
theorem allDistressed_floor (cbrt : ℚ → ℚ) (zs : ℕ → ℕ → ℚ) (n : ℕ)
    (h : ∀ i < n, (trialOutcome cbrt (zs i)).distressed = true) (hn : 0 < n) :
    (runMonteCarlo cbrt zs n).pd = 1 ∧
    (runMonteCarlo cbrt zs n).meanIRR = 0 ∧
    (runMonteCarlo cbrt zs n).rar = 0 := by
  have hall : ∀ o ∈ (List.range n).map (fun i => trialOutcome cbrt (zs i)),
      o.distressed = true := by
    intro o ho
    obtain ⟨i, hi, rfl⟩ := List.mem_map.mp ho
    exact h i (List.mem_range.mp hi)
  have hfilt : ((List.range n).map (fun i => trialOutcome cbrt (zs i))).filter
      (fun o => o.distressed) = (List.range n).map (fun i => trialOutcome cbrt (zs i)) :=
    List.filter_eq_self.mpr (fun o ho => hall o ho)
  have hsurv : ((List.range n).map (fun i => trialOutcome cbrt (zs i))).filter
      (fun o => !o.distressed) = [] := by
    rw [List.filter_eq_nil_iff]
    intro o ho
    simp [hall o ho]
  unfold runMonteCarlo summarize
  rw [hfilt, hsurv]
  have hn2 : ((n : ℚ)) ≠ 0 := by positivity
  simp [div_self hn2]

/-- Claim C8, witness: two trials whose draws force immediate distress. -/
theorem allDistressed_floor_witness :
    (runMonteCarlo id (fun _ _ => -1000) 2).pd = 1 ∧
    (runMonteCarlo id (fun _ _ => -1000) 2).meanIRR = 0 ∧
    (runMonteCarlo id (fun _ _ => -1000) 2).rar = 0 :=
  allDistressed_floor id (fun _ _ => -1000) 2
    (by
      intro i _
      norm_num [trialOutcome, simulateTrial, runMonths, monthFactor, growthMean,
        growthStd, baseMRR, burnRate, initialCash])
    (by norm_num)

/-! ## Claim C2: ROI non-negativity -/

/-- Claim C2: every recorded yearly value of every simulated path of
`runPortfolioMC` is nonnegative (the code records `Math.max(0, value)`),
and in `runMonteCarlo` the payout multiple is always nonnegative with a
distressed trial recording multiple exactly 0, never a negative value. -/
theorem roi_nonneg :
    (∀ (p : List WeightedStartup) (r : ℕ → ℚ) (sim : ℕ),
        ∀ v ∈ recordedPath p r sim, 0 ≤ v) ∧
    (∀ (cbrt : ℚ → ℚ) (z : ℕ → ℚ),
        0 ≤ (trialOutcome cbrt z).multiple ∧
        ((trialOutcome cbrt z).distressed = true →
          (trialOutcome cbrt z).multiple = 0)) := by
  constructor
  · intro p r sim v hv
    simp only [recordedPath, List.mem_map] at hv
    obtain ⟨y, _, rfl⟩ := hv
    by_cases h0 : y = 0
    · simp [h0]
    · simp only [h0, if_false]
      exact le_max_left 0 _
  · intro cbrt z
    unfold trialOutcome
    by_cases hd : (simulateTrial z).distressed
    · simp [hd]
    · refine ⟨?_, ?_⟩
      · simp only [hd, Bool.false_eq_true, if_false]
        exact le_max_left 0 _
      · simp [hd]

/-- Claim C2, witness: the head value of a concrete path, and a concrete
distressed trial recording multiple 0. -/
theorem roi_nonneg_witness :
    (0 : ℚ) ≤ 1 ∧ (trialOutcome id (fun _ => -1000)).multiple = 0 :=
  ⟨roi_nonneg.1 [] (fun _ => 0) 0 1
      (by
        simp only [recordedPath, List.mem_map]
        exact ⟨0, by norm_num, by norm_num⟩),
    (roi_nonneg.2 id (fun _ => -1000)).2
      (by
        norm_num [trialOutcome, simulateTrial, runMonths, monthFactor, growthMean,
          growthStd, baseMRR, burnRate, initialCash])⟩

/-! ## Claim C1: the simplex invariant -/

theorem sum_map_div_const {α : Type} (l : List α) (f : α → ℚ) (c : ℚ) :
    (l.map (fun x => f x / c)).sum = (l.map f).sum / c := by
  induction l with
  | nil => simp
  | cons a t ih => simp [ih, add_div]

theorem rawWeight_pos (rf : ℚ) (x : ScoredStartup)
    (hpd : 0 ≤ x.s.pd12m) (hirr : 0 ≤ x.s.expectedIRR)
    (hrf0 : 0 ≤ rf) (hrf1 : rf ≤ 1) : 0 < rawWeight rf x := by
  unfold rawWeight
  have h1 : 0 < x.s.pd12m + 1 / 20 := by linarith
  have h2 : (0 : ℚ) < 1 / (x.s.pd12m + 1 / 20) := by positivity
  have h3 : (3 : ℚ) / 5 ≤ 1 - rf * (2 / 5) := by linarith
  have h4 : 0 < (1 / (x.s.pd12m + 1 / 20)) * (1 - rf * (2 / 5)) :=
    mul_pos h2 (lt_of_lt_of_le (by norm_num) h3)
  have h5 : 0 ≤ x.s.expectedIRR * rf * 5 := by positivity
  linarith

theorem mem_selectedOf_startups (startups : List Startup) (pr : Profile)
    (x : ScoredStartup) (hx : x ∈ selectedOf startups pr) : x.s ∈ startups := by
  have hx2 : x ∈ scoredOf startups pr := by
    rcases mem_of_pass2 _ _ _ hx with h | h
    · rcases mem_of_pass1 _ _ _ _ h with h2 | h2
      · simp at h2
      · exact h2
    · exact h
  unfold scoredOf at hx2
  rw [List.mem_insertionSort] at hx2
  obtain ⟨s, hs, heq⟩ := List.mem_map.mp hx2
  have hxs : x.s = s := by rw [← heq]
  rw [hxs]
  unfold poolOf at hs
  by_cases h5 : 5 ≤ (eligibleOf startups pr).length
  · rw [if_pos h5] at hs
    exact List.mem_of_mem_filter hs
  · rwa [if_neg h5] at hs

/-- Claim C1: for a nonempty startup list (hence a nonempty selection),
slider risk in range, and well-formed startup parameters
(`0 ≤ pd12m`, `0 ≤ expectedIRR`), the portfolio produced by
`buildPortfolio` is nonempty, its weights sum to 1 within the `1e-6`
tolerance (in exact rational arithmetic the sum is exactly 1), and the
weights are assigned over exactly the selected subset. -/
theorem buildPortfolio_simplex (startups : List Startup) (pr : Profile)
    (hne : startups ≠ []) (hrisk : pr.risk ≤ 5)
    (hparams : ∀ s ∈ startups, 0 ≤ s.pd12m ∧ 0 ≤ s.expectedIRR) :
    buildPortfolio startups pr ≠ [] ∧
    |((buildPortfolio startups pr).map (fun w => w.weight)).sum - 1| < 1 / 1000000 ∧
    (buildPortfolio startups pr).map (fun w => w.s) =
      (selectedOf startups pr).map (fun x => x.s) := by
  have hrf0 : 0 ≤ riskFactor pr.risk := by unfold riskFactor; positivity
  have hrf1 : riskFactor pr.risk ≤ 1 := by
    unfold riskFactor
    rw [div_le_one (by norm_num : (0 : ℚ) < 5)]
    exact_mod_cast hrisk
  have hpool_ne : poolOf startups pr ≠ [] := by
    unfold poolOf
    by_cases h5 : 5 ≤ (eligibleOf startups pr).length
    · rw [if_pos h5]
      intro h
      rw [h] at h5
      simp at h5
    · rwa [if_neg h5]
  have hscored_ne : scoredOf startups pr ≠ [] := by
    intro h
    have hlen := congrArg List.length h
    rw [scoredOf, List.length_insertionSort, List.length_map] at hlen
    exact hpool_ne (List.length_eq_zero.mp hlen)
  obtain ⟨hd, t, hht⟩ := List.exists_cons_of_ne_nil hscored_ne
  have hsel_ne : selectedOf startups pr ≠ [] :=
    List.ne_nil_of_mem (head_mem_selectedOf startups pr hd t hht)
  have hpos : ∀ x ∈ selectedOf startups pr, 0 < rawWeight (riskFactor pr.risk) x := by
    intro x hx
    have hs := hparams x.s (mem_selectedOf_startups startups pr x hx)
    exact rawWeight_pos _ x hs.1 hs.2 hrf0 hrf1
  have hT : 0 < ((selectedOf startups pr).map (rawWeight (riskFactor pr.risk))).sum := by
    apply List.sum_pos
    · intro y hy
      obtain ⟨x, hx, rfl⟩ := List.mem_map.mp hy
      exact hpos x hx
    · simp only [ne_eq, List.map_eq_nil_iff]
      exact hsel_ne
  have hw : ((buildPortfolio startups pr).map (fun w => w.weight)).sum = 1 := by
    unfold buildPortfolio
    simp only [List.map_map, Function.comp_def]
    rw [sum_map_div_const]
    exact div_self (ne_of_gt hT)
  refine ⟨?_, ?_, ?_⟩
  · unfold buildPortfolio
    simp only [ne_eq, List.map_eq_nil_iff]
    exact hsel_ne
  · rw [hw]
    norm_num
  · unfold buildPortfolio
    simp [List.map_map, Function.comp_def]

/-- Claim C1, witness: a concrete one-startup portfolio whose weight sum
is exactly 1. -/
theorem buildPortfolio_simplex_witness :
    |((buildPortfolio [⟨1, "A", 1 / 2, 1 / 10⟩] ⟨0, 1, 3⟩).map
        (fun w => w.weight)).sum - 1| < 1 / 1000000 :=
  (buildPortfolio_simplex [⟨1, "A", 1 / 2, 1 / 10⟩] ⟨0, 1, 3⟩
    (by simp) (by norm_num)
    (by
      intro s hs
      simp only [List.mem_singleton] at hs
      subst hs
      norm_num)).2.1

/-! ## Claim C7: the monthly evolution law -/

/-- Claim C7, counterexample.  The claim says each monthly step multiplies
the valuation by `exp((growth/12 - 0.5*(vol/12)^2) + (vol/sqrt(12))*z)`.
The code multiplies the MRR by `monthFactor z = 1 + growthMean + growthStd*z`,
which at `z = -20` equals `-12/25 < 0`, while the claimed exponential factor
is strictly positive: the two laws disagree. -/
theorem monthFactor_ne_gbm :
    ((monthFactor (-20) : ℚ) : ℝ) ≠
      Real.exp ((((growthMean : ℚ) : ℝ) / 12 - (((growthStd : ℚ) : ℝ) / 12) ^ 2 / 2) +
        (((growthStd : ℚ) : ℝ) / Real.sqrt 12) * (-20)) := by
  intro h
  have hneg : ((monthFactor (-20) : ℚ) : ℝ) < 0 := by
    norm_num [monthFactor, growthMean, growthStd]
  rw [h] at hneg
  exact absurd hneg (not_lt.mpr (Real.exp_pos _).le)

/-- Claim C7, amended.  In `runMonteCarlo` the quantity that evolves is the
MRR, and each monthly step multiplies it by the arithmetic factor
`1 + (growthMean + growthStd * z)` (no exponential/geometric-Brownian
form): after `m` undisturbed months the MRR equals
`baseMRR * prod_i (1 + growthMean + growthStd * z_i)`, and a trial that
never hits distress ends with exactly `mrrSeq z 12`. -/
theorem mrr_monthly_product :
    (∀ (z : ℕ → ℚ) (m : ℕ),
        mrrSeq z m = baseMRR * ((List.range m).map (fun i => monthFactor (z i))).prod) ∧
    (∀ z : ℕ → ℚ, (simulateTrial z).distressed = false →
        (simulateTrial z).mrr = mrrSeq z 12) := by
  constructor
  · intro z m
    induction m with
    | zero => simp [mrrSeq]
    | succ k ih =>
      rw [mrrSeq, ih, List.range_succ, List.map_append, List.prod_append]
      simp [mul_assoc]
  · have haux : ∀ (z : ℕ → ℚ) (fuel m : ℕ) (st : TrialState),
        st.mrr = mrrSeq z m →
        (runMonths z m fuel st).distressed = false →
        (runMonths z m fuel st).mrr = mrrSeq z (m + fuel) := by
      intro z fuel
      induction fuel with
      | zero =>
        intro m st hmrr _
        simpa [runMonths] using hmrr
      | succ k ih =>
        intro m st hmrr hdist
        by_cases hc : st.cash + st.mrr * monthFactor (z m) - burnRate ≤ 0
        · exfalso
          simp only [runMonths, if_pos hc] at hdist
          simp at hdist
        · simp only [runMonths, if_neg hc] at hdist ⊢
          have h2 : (⟨st.cash + st.mrr * monthFactor (z m) - burnRate,
              st.mrr * monthFactor (z m), false⟩ : TrialState).mrr = mrrSeq z (m + 1) := by
            simp [mrrSeq, hmrr]
          rw [ih (m + 1) _ h2 hdist]
          congr 1
          omega
    intro z hdist
    unfold simulateTrial at hdist ⊢
    simpa using haux z 12 0 ⟨initialCash, baseMRR, false⟩ (by simp [mrrSeq]) hdist

/-- Claim C7, witness: the all-zero draw stream never hits distress, and
its final MRR is the 12-month product. -/
theorem mrr_monthly_product_witness :
    (simulateTrial (fun _ => 0)).distressed = false ∧
    (simulateTrial (fun _ => 0)).mrr = mrrSeq (fun _ => 0) 12 := by
  have hd : (simulateTrial (fun _ => 0)).distressed = false := by
    norm_num [simulateTrial, runMonths, monthFactor, growthMean, growthStd,
      baseMRR, burnRate, initialCash]
  exact ⟨hd, mrr_monthly_product.2 (fun _ => 0) hd⟩

/-! ## Claim C9: percentile monotonicity -/

theorem roundTenth_mono {a b : ℚ} (h : a ≤ b) : roundTenth a ≤ roundTenth b := by
  unfold roundTenth
  have h1 : ⌊a * 10 + 1 / 2⌋ ≤ ⌊b * 10 + 1 / 2⌋ := Int.floor_le_floor (by linarith)
  have h2 : ((⌊a * 10 + 1 / 2⌋ : ℤ) : ℚ) ≤ ((⌊b * 10 + 1 / 2⌋ : ℤ) : ℚ) := by
    exact_mod_cast h1
  linarith

theorem sorted_getD_mono (l : List ℚ) (hs : l.Sorted (· ≤ ·)) (i j : ℕ)
    (hij : i ≤ j) (hj : j < l.length) : l.getD i 0 ≤ l.getD j 0 := by
  have hi : i < l.length := lt_of_le_of_lt hij hj
  rw [List.getD_eq_getElem _ _ hi, List.getD_eq_getElem _ _ hj]
  exact hs.rel_get_of_le (by exact_mod_cast hij)

theorem getPercentile_mono (arr : List ℚ) (hne : arr ≠ []) (p q : ℚ)
    (_hp : 0 ≤ p) (hpq : p ≤ q) (hq : q < 1) :
    getPercentile arr p ≤ getPercentile arr q := by
  unfold getPercentile
  have hlen : (List.insertionSort (· ≤ ·) arr).length = arr.length :=
    List.length_insertionSort _ _
  have hpos : 0 < arr.length := List.length_pos.mpr hne
  have hcast : (0 : ℚ) < (arr.length : ℚ) := by exact_mod_cast hpos
  have hij : Int.toNat ⌊(arr.length : ℚ) * p⌋ ≤ Int.toNat ⌊(arr.length : ℚ) * q⌋ := by
    apply Int.toNat_le_toNat
    apply Int.floor_le_floor
    nlinarith
  have hj : Int.toNat ⌊(arr.length : ℚ) * q⌋ < (List.insertionSort (· ≤ ·) arr).length := by
    rw [hlen]
    have hq0 : (arr.length : ℚ) * q < (arr.length : ℚ) := by nlinarith
    have hfl : ⌊(arr.length : ℚ) * q⌋ < (arr.length : ℤ) := by
      rw [Int.floor_lt]
      exact_mod_cast hq0
    omega
  exact sorted_getD_mono _ (List.sorted_insertionSort _ _) _ _ hij hj

/-- Claim C9: `getPercentile` sorts ascending and takes the order statistic
at index `floor(n * p)`; consequently every chart row of the portfolio
projection satisfies `p10 ≤ p25 ≤ p50 ≤ p75 ≤ p90`. -/
theorem chart_percentiles_monotone (p : List WeightedStartup) (r : ℕ → ℚ) (n : ℕ)
    (hn : 0 < n) :
    ∀ row ∈ (runPortfolioMC p n r).chartData,
      row.p10 ≤ row.p25 ∧ row.p25 ≤ row.p50 ∧ row.p50 ≤ row.p75 ∧ row.p75 ≤ row.p90 := by
  intro row hrow
  simp only [runPortfolioMC, chartDataOf, List.mem_map] at hrow
  obtain ⟨y, _, rfl⟩ := hrow
  have hvals_ne : (pathsOf p r n).map (fun path => path.getD y 0) ≠ [] := by
    simp only [ne_eq, List.map_eq_nil_iff, pathsOf, List.range_eq_nil]
    omega
  have step : ∀ a b : ℚ, 0 ≤ a → a ≤ b → b < 1 →
      roundTenth (getPercentile ((pathsOf p r n).map (fun path => path.getD y 0)) a * 100) ≤
      roundTenth (getPercentile ((pathsOf p r n).map (fun path => path.getD y 0)) b * 100) := by
    intro a b ha hab hb
    apply roundTenth_mono
    have := getPercentile_mono _ hvals_ne a b ha hab hb
    linarith
  exact ⟨step _ _ (by norm_num) (by norm_num) (by norm_num),
    step _ _ (by norm_num) (by norm_num) (by norm_num),
    step _ _ (by norm_num) (by norm_num) (by norm_num),
    step _ _ (by norm_num) (by norm_num) (by norm_num)⟩

/-- Claim C9, witness: the year-0 row of a one-path simulation of the empty
portfolio. -/
theorem chart_percentiles_monotone_witness :
    (⟨0, 100, 100, 100, 100, 100⟩ : ChartRow).p10 ≤
        (⟨0, 100, 100, 100, 100, 100⟩ : ChartRow).p25 ∧
      (⟨0, 100, 100, 100, 100, 100⟩ : ChartRow).p25 ≤
        (⟨0, 100, 100, 100, 100, 100⟩ : ChartRow).p50 ∧
      (⟨0, 100, 100, 100, 100, 100⟩ : ChartRow).p50 ≤
        (⟨0, 100, 100, 100, 100, 100⟩ : ChartRow).p75 ∧
      (⟨0, 100, 100, 100, 100, 100⟩ : ChartRow).p75 ≤
        (⟨0, 100, 100, 100, 100, 100⟩ : ChartRow).p90 :=
  chart_percentiles_monotone [] (fun _ => 0) 1 (by norm_num)
    ⟨0, 100, 100, 100, 100, 100⟩
    (by
      norm_num [runPortfolioMC, chartDataOf, chartRowOf, pathsOf, recordedPath,
        getPercentile, roundTenth, valueAfter, yearReturnAux, List.insertionSort,
        List.orderedInsert, List.range_succ])

/-! ## Claim C3: seedability and determinism -/

theorem yearReturnAux_congr (l : List WeightedStartup) (r1 r2 : ℕ → ℚ) (year : ℕ) :
    ∀ base, (∀ i, base ≤ i → i < base + 2 * l.length → r1 i = r2 i) →
    yearReturnAux l r1 base year = yearReturnAux l r2 base year := by
  induction l with
  | nil => intro base _; simp [yearReturnAux]
  | cons x t ih =>
    intro base h
    have hlen : (x :: t).length = t.length + 1 := rfl
    simp only [yearReturnAux]
    have h0 : r1 base = r2 base := h base (le_refl base) (by rw [hlen]; omega)
    have h1 : r1 (base + 1) = r2 (base + 1) := h (base + 1) (by omega) (by rw [hlen]; omega)
    rw [h0, h1, ih (base + 2) ?_]
    intro i hi1 hi2
    exact h i (by omega) (by rw [hlen]; omega)

theorem valueAfter_congr (p : List WeightedStartup) (r1 r2 : ℕ → ℚ) (simBase : ℕ) :
    ∀ y, (∀ i, simBase ≤ i → i < simBase + y * (2 * p.length) → r1 i = r2 i) →
    valueAfter p r1 simBase y = valueAfter p r2 simBase y := by
  intro y
  induction y with
  | zero => intro _; simp [valueAfter]
  | succ k ih =>
    intro h
    have hmul : k * (2 * p.length) ≤ (k + 1) * (2 * p.length) :=
      Nat.mul_le_mul_right _ (Nat.le_succ k)
    have hexp : simBase + (k + 1) * (2 * p.length) =
        (simBase + k * (2 * p.length)) + 2 * p.length := by ring
    simp only [valueAfter]
    rw [ih (fun i hi1 hi2 => h i hi1 (by omega)),
      yearReturnAux_congr p r1 r2 (k + 1) (simBase + k * (2 * p.length))
        (fun i hi1 hi2 => h i (by omega) (by omega))]

theorem recordedPath_congr (p : List WeightedStartup) (r1 r2 : ℕ → ℚ) (sim : ℕ)
    (h : ∀ i, i < (sim + 1) * (5 * (2 * p.length)) → r1 i = r2 i) :
    recordedPath p r1 sim = recordedPath p r2 sim := by
  unfold recordedPath
  apply List.map_congr_left
  intro y hy
  have hy6 : y < 6 := List.mem_range.mp hy
  by_cases h0 : y = 0
  · simp [h0]
  · simp only [h0, if_false]
    congr 1
    apply valueAfter_congr
    intro i hi1 hi2
    apply h
    have hy5 : y ≤ 5 := by omega
    have hmul : y * (2 * p.length) ≤ 5 * (2 * p.length) := Nat.mul_le_mul_right _ hy5
    have hexp : (sim + 1) * (5 * (2 * p.length)) =
        sim * (5 * (2 * p.length)) + 5 * (2 * p.length) := by ring
    have hsim : sim * (5 * (2 * p.length)) = sim * (5 * (2 * p.length)) := rfl
    omega

/-- Claim C3, counterexample.  The engine is not seedable: `runPortfolioMC`
consumes the ambient `Math.random()` stream and takes no seed input, so a
pair of runs with identical portfolio and identical trial count (the whole
engine input) still differ when the ambient draws differ — the same
one-holding portfolio reports distress risk 1 under one ambient stream and
0 under another. -/
theorem runPortfolioMC_ambient_dependent :
    runPortfolioMC [⟨⟨0, "A", 0, 1 / 2⟩, 0, 0, 1⟩] 1 (fun _ => 0) ≠
      runPortfolioMC [⟨⟨0, "A", 0, 1 / 2⟩, 0, 0, 1⟩] 1 (fun _ => 1) := by
  intro h
  have hpd := congrArg MCResult.pd h
  norm_num [runPortfolioMC, pathsOf, recordedPath, valueAfter, yearReturnAux,
    contribOf, hazardRate, List.range_succ, List.filter, List.getD_cons_succ,
    List.getD_cons_zero] at hpd

/-- Claim C3, amended.  The code provides no seed; the simulation is
deterministic as a function of its inputs and the ambient draw stream it
consumes: `n` simulations over a portfolio of `k` holdings read only the
first `n * 5 * 2 * k` draws (two per holding-year), and two runs whose
streams agree on that prefix produce identical results.  Runs with
identical inputs but different ambient streams can differ (see the
counterexample). -/
theorem runPortfolioMC_stream_prefix (p : List WeightedStartup) (n : ℕ) (r1 r2 : ℕ → ℚ)
    (h : ∀ i, i < n * (5 * (2 * p.length)) → r1 i = r2 i) :
    runPortfolioMC p n r1 = runPortfolioMC p n r2 := by
  have hpaths : pathsOf p r1 n = pathsOf p r2 n := by
    unfold pathsOf
    apply List.map_congr_left
    intro sim hsim
    have hs : sim < n := List.mem_range.mp hsim
    apply recordedPath_congr
    intro i hi
    apply h
    have hmul : (sim + 1) * (5 * (2 * p.length)) ≤ n * (5 * (2 * p.length)) :=
      Nat.mul_le_mul_right _ (by omega)
    omega
  unfold runPortfolioMC chartDataOf
  rw [hpaths]

/-- Claim C3, witness for the amended theorem: two streams that agree on
the ten consumed draws (and disagree beyond them) give identical results. -/
theorem runPortfolioMC_stream_prefix_witness :
    runPortfolioMC [⟨⟨0, "A", 0, 1 / 2⟩, 0, 0, 1⟩] 1 (fun _ => 0) =
      runPortfolioMC [⟨⟨0, "A", 0, 1 / 2⟩, 0, 0, 1⟩] 1
        (fun i => if i < 10 then 0 else 1) :=
  runPortfolioMC_stream_prefix [⟨⟨0, "A", 0, 1 / 2⟩, 0, 0, 1⟩] 1 _ _
    (by
      intro i hi
      have hi10 : i < 10 := by simpa using hi
      simp [hi10])

end VentureNerve
